import Mathlib

/-
Shallow embedding of mongodb-queue.js (a work queue over MongoDB).

Modelling conventions:
- A BSON document field is absent, null, or holds a value (`BField`); the
  distinction matters because the query `{f: null}` matches absent-or-null,
  while `{f: {$exists: true}}` matches null-or-value.
- Timestamps are integers (milliseconds); `nowPlusSecs` mirrors
  `new Date(Date.now() + secs * 1000)`.  Legacy string timestamps (which
  `migrate` rewrites) are the `Ts.str` constructor; comparison filters with a
  date operand are type-bracketed and never match strings.
- Ack tokens (`crypto.randomBytes(16).toString('hex')`) are modelled by a
  deterministic supply counter carried in the state.
- Each public operation is evaluated at a single instant `t`; callbacks are
  modelled by returning the list of callback invocations in call order, and
  the asynchronous store round-trips complete immediately.
-/

namespace MQ

/-- A BSON field slot: absent from the document, present with value null, or
present with a proper value. -/
inductive BField (α : Type) where
  | absent : BField α
  | null : BField α
  | val : α → BField α
deriving DecidableEq

/-- A stored timestamp: either a native date (milliseconds) or a legacy
string from a prior version of the library (rewritten by `migrate`). -/
inductive Ts where
  | date : Int → Ts
  | str : String → Ts
deriving DecidableEq

/-- Payload values.  `msgv id ack payload tries` is the external
representation of a message used as a payload when a message is re-enqueued
onto a dead queue. -/
inductive Val where
  | str : String → Val
  | num : Int → Val
  | msgv : String → Nat → Val → Nat → Val
deriving DecidableEq

/-- One document of the queue collection. -/
structure Doc where
  mid : Nat
  payload : Val
  visible : Ts
  ack : BField Nat
  tries : BField Nat
  deleted : BField Ts
  debounce : BField String
deriving DecidableEq

/-- The Mongo filter `{f: null}`: matches when the field is absent or null. -/
def nullMatch : BField α → Bool
  | .absent => true
  | .null => true
  | .val _ => false

/-- The Mongo filter `{f: {$exists: true}}`: matches when the field is
present, with any value including null. -/
def existsTrue : BField α → Bool
  | .absent => false
  | .null => true
  | .val _ => true

/-- The Mongo equality filter `{f: x}` for a non-null scalar `x`. -/
def eqVal [DecidableEq α] (x : α) : BField α → Bool
  | .val y => decide (x = y)
  | _ => false

/-- The Mongo filter `{f: {$lte: Date(t)}}`: type-bracketed, a legacy string
timestamp never matches. -/
def tsLe (t : Int) : Ts → Bool
  | .date x => decide (x ≤ t)
  | .str _ => false

/-- The Mongo filter `{f: {$gt: Date(t)}}`: type-bracketed, a legacy string
timestamp never matches. -/
def tsGt (t : Int) : Ts → Bool
  | .date x => decide (x > t)
  | .str _ => false

/-- Read a field value with a default (used for the external `tries`). -/
def bgetD (b : BField α) (dflt : α) : α :=
  match b with
  | .val x => x
  | _ => dflt

/-- `nowPlusSecs(secs)` from the source: now plus `secs * 1000` ms. -/
def nowPlusSecs (t : Int) (secs : Int) : Int := t + secs * 1000

/-- JS `a || b` on an optional number: `0` (and absence) is falsy. -/
def jsOrInt (o : Option Int) (d : Int) : Int :=
  match o with
  | some v => if v = 0 then d else v
  | none => d

/-- JS `a || b` on an optional natural number: `0` (and absence) is falsy. -/
def jsOrNat (o : Option Nat) (d : Nat) : Nat :=
  match o with
  | some v => if v = 0 then d else v
  | none => d

/-- JS `a || null` on an optional string: the empty string is falsy. -/
def jsStrOrNull (o : Option String) : Option String :=
  match o with
  | some s => if s = "" then none else some s
  | none => none

/-- findOneAndUpdate without a sort specifier: update the first document
matching `p` with `u`; return the post-update document (returnOriginal
false) and the new collection. -/
def updateFirst (p : Doc → Bool) (u : Doc → Doc) : List Doc → Option Doc × List Doc
  | [] => (none, [])
  | d :: ds =>
    if p d then (some (u d), u d :: ds)
    else
      let r := updateFirst p u ds
      (r.1, d :: r.2)

/-- The claim filter of `get` and `size`:
`{deleted: null, visible: {$lte: now}}`. -/
def claimQuery (t : Int) (d : Doc) : Bool :=
  nullMatch d.deleted && tsLe t d.visible

/-- The document `findOneAndUpdate` with sort `{_id: 1}` picks: the matching
document with the smallest `_id` (earliest on ties). -/
def minClaimable (t : Int) : List Doc → Option Doc
  | [] => none
  | d :: ds =>
    let r := minClaimable t ds
    if claimQuery t d then
      match r with
      | none => some d
      | some m => if d.mid ≤ m.mid then some d else some m
    else r

/-- Configuration of a dead queue as far as its `add` path is concerned: the
default delay that queue was constructed with. -/
structure DeadCfg where
  delay : Int
deriving DecidableEq

/-- A constructed Queue: the fields set by the constructor. -/
structure Queue where
  name : String
  visibility : Int
  delay : Int
  cleanAfterSeconds : Int
  deadQueue : Option DeadCfg
  maxRetries : Option Nat
deriving DecidableEq

/-- The options bag accepted by the constructor (absent entries are
`undefined` in JS). -/
structure QueueOpts where
  visibility : Option Int := none
  delay : Option Int := none
  deadQueue : Option DeadCfg := none
  maxRetries : Option Nat := none
  cleanAfterSeconds : Option Int := none

/-- Errors surfaced by the library (store errors are out of scope).  The two
unidentified-ack variants carry the offending token, matching the messages
`Queue.ping(): Unidentified ack  : <ack>` and
`Queue.ack(): Unidentified ack : <ack>`. -/
inductive QErr where
  | noClient : QErr
  | noName : QErr
  | emptyAdd : QErr
  | unidentifiedAckPing : Nat → QErr
  | unidentifiedAckAck : Nat → QErr
deriving DecidableEq

/-- The `Queue` constructor.  Missing client or name throws; otherwise the
fields are filled with the JS falsy-default idiom (`opts.visibility || 30`,
`opts.delay || 0`, `opts.cleanAfterSeconds >= 0 ? ... : -1`, and with a dead
queue `opts.maxRetries || 5`, without one `opts.maxRetries || Infinity`,
where `none` models Infinity). -/
def mkQueue (hasClient : Bool) (name : String) (opts : QueueOpts) : Except QErr Queue :=
  if !hasClient then .error .noClient
  else if name = "" then .error .noName
  else .ok
    { name := name
      visibility := jsOrInt opts.visibility 30
      delay := jsOrInt opts.delay 0
      cleanAfterSeconds :=
        match opts.cleanAfterSeconds with
        | some c => if 0 ≤ c then c else -1
        | none => -1
      deadQueue := opts.deadQueue
      maxRetries :=
        match opts.deadQueue with
        | some _ => some (jsOrNat opts.maxRetries 5)
        | none =>
          match opts.maxRetries with
          | some m => if m = 0 then none else some m
          | none => none }

/-- Mutable world: the queue collection, the dead-queue collection, the next
store-assigned `_id`, and the random-token supply. -/
structure St where
  col : List Doc
  deadCol : List Doc
  nextId : Nat
  supply : Nat
deriving DecidableEq

/-- The external representation of a claimed message:
`{id, ack, payload, tries}` with `id` the stringified `_id`. -/
structure Msg where
  id : String
  ack : Nat
  payload : Val
  tries : Nat
deriving DecidableEq

/-- A message used as a payload (dead-queue `add` receives the whole
external representation). -/
def Msg.toVal (m : Msg) : Val := .msgv m.id m.ack m.payload m.tries

/-- Stringification of a store id (`'' + msg._id`). -/
def idString (n : Nat) : String := toString n

/-- Options bag of `add`. -/
structure AddOpts where
  delay : Option Int := none
  debounce : Option String := none

/-- Per-operation outcome inside the bulk write of `add`: an insert produced
`insertedIds[index]`, an upsert that inserted produced `upsertedIds[index]`,
and an upsert that matched an existing document produced neither. -/
inductive OpResult where
  | inserted : Nat → OpResult
  | upserted : Nat → OpResult
  | matched : OpResult
deriving DecidableEq

/-- `result.insertedIds[index] || result.upsertedIds[index] || '(debounced)'`
followed by string coercion. -/
def OpResult.idStr : OpResult → String
  | .inserted n => idString n
  | .upserted n => idString n
  | .matched => "(debounced)"

/-- The document written by a plain `insertOne` of `add`: only `visible` and
`payload` are present. -/
def insertDoc (i : Nat) (p : Val) (vis : Int) : Doc :=
  { mid := i, payload := p, visible := .date vis, ack := .absent, tries := .absent,
    deleted := .absent, debounce := .absent }

/-- The document created when a debounce upsert matches nothing: the store
builds the base document from the equality clauses of the filter
(`ack: null, deleted: null, debounce: k` — null values included) and then
applies the `$set`. -/
def upsertDoc (i : Nat) (p : Val) (vis : Int) (k : String) : Doc :=
  { mid := i, payload := p, visible := .date vis, ack := .null, tries := .absent,
    deleted := .null, debounce := .val k }

/-- The debounce upsert filter `{ack: null, deleted: null, debounce: k}`. -/
def debounceQuery (k : String) (d : Doc) : Bool :=
  nullMatch d.ack && nullMatch d.deleted && eqVal k d.debounce

/-- The debounce upsert update `$set {visible, payload}`. -/
def debounceUpdate (vis : Int) (p : Val) (d : Doc) : Doc :=
  { d with visible := .date vis, payload := p }

/-- One operation of the bulk write of `add` (ordered execution). -/
def addOneOp (debounce : Option String) (vis : Int) (p : Val) (st : St) : OpResult × St :=
  match debounce with
  | some k =>
    match updateFirst (debounceQuery k) (debounceUpdate vis p) st.col with
    | (some _, col2) => (.matched, { st with col := col2 })
    | (none, _) =>
      (.upserted st.nextId,
        { st with col := st.col ++ [upsertDoc st.nextId p vis k], nextId := st.nextId + 1 })
  | none =>
    (.inserted st.nextId,
      { st with col := st.col ++ [insertDoc st.nextId p vis], nextId := st.nextId + 1 })

/-- The ordered bulk write of `add`: one operation per payload element, in
input order. -/
def bulkExec (debounce : Option String) (vis : Int) : List Val → St → List OpResult × St
  | [], st => ([], st)
  | p :: ps, st =>
    let r := addOneOp debounce vis p st
    let rest := bulkExec debounce vis ps r.2
    (r.1 :: rest.1, rest.2)

/-- A value returned through a callback: `add` returns either a plain string
or (per the specification) an array of id strings. -/
inductive JsRet where
  | jstr : String → JsRet
  | jarr : List String → JsRet
deriving DecidableEq

/-- `var delay = opts.delay || self.delay`. -/
def effDelay (q : Queue) (opts : AddOpts) : Int := jsOrInt opts.delay q.delay

/-- `var visible = delay ? nowPlusSecs(delay) : now()`. -/
def addVisible (q : Queue) (opts : AddOpts) (t : Int) : Int :=
  if effDelay q opts = 0 then t else nowPlusSecs t (effDelay q opts)

/-- `Queue.prototype.add`.  A `Sum.inl` payload is the single (non-array)
case; `Sum.inr` is the batch case.  An empty batch fails before any write.
The batch return is the JS coercion `'' + ids`, which joins the element
strings with commas. -/
def addModel (q : Queue) (payload : Val ⊕ List Val) (opts : AddOpts) (t : Int) (st : St) :
    Except QErr JsRet × St :=
  let vis := addVisible q opts t
  let debounce := jsStrOrNull opts.debounce
  let payloads := match payload with | .inl p => [p] | .inr ps => ps
  if payloads.length = 0 then (.error .emptyAdd, st)
  else
    let r := bulkExec debounce vis payloads st
    let ids := r.1.map OpResult.idStr
    match payload with
    | .inl _ => (.ok (.jstr (ids.headD "")), r.2)
    | .inr _ => (.ok (.jstr (String.intercalate "," ids)), r.2)

/-- The live-lease filter shared by `ping` and `ack`:
`{ack: token, visible: {$gt: now}, deleted: null}`. -/
def liveAckQuery (tok : Nat) (t : Int) (d : Doc) : Bool :=
  eqVal tok d.ack && tsGt t d.visible && nullMatch d.deleted

/-- `Queue.prototype.ack`: set `deleted` to now on the live lease, else fail
with an unidentified-ack error carrying the token. -/
def ackOp (tok : Nat) (t : Int) (st : St) : Except QErr String × St :=
  match updateFirst (liveAckQuery tok t) (fun d => { d with deleted := .val (.date t) }) st.col with
  | (none, _) => (.error (.unidentifiedAckAck tok), st)
  | (some d, col2) => (.ok (idString d.mid), { st with col := col2 })

/-- `opts.visibility || self.visibility`, shared by `get` and `ping`. -/
def effVisibility (q : Queue) (optVis : Option Int) : Int := jsOrInt optVis q.visibility

/-- `Queue.prototype.ping`: push `visible` forward on the live lease, else
fail with an unidentified-ack error carrying the token. -/
def pingOp (q : Queue) (optVis : Option Int) (tok : Nat) (t : Int) (st : St) :
    Except QErr String × St :=
  match updateFirst (liveAckQuery tok t)
      (fun d => { d with visible := .date (nowPlusSecs t (effVisibility q optVis)) }) st.col with
  | (none, _) => (.error (.unidentifiedAckPing tok), st)
  | (some d, col2) => (.ok (idString d.mid), { st with col := col2 })

/-- The update of the claim in `get`: `$inc tries by 1`, `$set` a fresh ack
token and the new `visible`.  (`$inc` on an absent field creates it with
value 1; no operation ever writes a null `tries`, so `bgetD` is exact on
reachable documents.) -/
def claimUpdate (tok : Nat) (newVis : Int) (d : Doc) : Doc :=
  { d with tries := .val (bgetD d.tries 0 + 1), ack := .val tok, visible := .date newVis }

/-- The atomic `findOneAndUpdate` of `get`: claim the matching document with
the smallest `_id`, returning the post-update document projected to the
external representation. -/
def claimStep (vis : Int) (t : Int) (st : St) : Option Msg × St :=
  match minClaimable t st.col with
  | none => (none, st)
  | some m =>
    match updateFirst (fun d => claimQuery t d && d.mid == m.mid)
        (claimUpdate st.supply (nowPlusSecs t vis)) st.col with
    | (none, _) => (none, st)
    | (some d2, col2) =>
      (some { id := idString d2.mid, ack := bgetD d2.ack 0, payload := d2.payload,
              tries := bgetD d2.tries 0 },
       { st with col := col2, supply := st.supply + 1 })

/-- `msg.tries > self.maxRetries`, where `none` models `Infinity`. -/
def exceedsMax (q : Queue) (tries : Nat) : Bool :=
  match q.maxRetries with
  | none => false
  | some m => decide (tries > m)

/-- `self.deadQueue.add(msg, cb)`: a plain insert of the external message
representation into the dead collection, using the dead queue's default
delay (no options are passed). -/
def deadAdd (dq : DeadCfg) (m : Msg) (t : Int) (st : St) : St :=
  let vis := if dq.delay = 0 then t else nowPlusSecs t dq.delay
  { st with deadCol := st.deadCol ++ [insertDoc st.nextId m.toVal vis],
            nextId := st.nextId + 1 }

/-- `Queue.prototype.get`, fuelled.  The returned list holds every callback
invocation in call order (the model completes store round-trips at once, so
in the over-retry branch without a dead queue the recursive results are
emitted before the fall-through `callback(null, msg)` of the source; the
source lacks a `return` there, so that call always happens).  The recursive
call passes no options, hence uses the default visibility. -/
def getLoop (q : Queue) (vis : Int) (t : Int) : Nat → St → List (Except QErr (Option Msg)) × St
  | 0, st => ([], st)
  | Nat.succ fuel, st =>
    match claimStep vis t st with
    | (none, st1) => ([Except.ok none], st1)
    | (some msg, st1) =>
      if exceedsMax q msg.tries then
        match q.deadQueue with
        | some dq =>
          let st2 := deadAdd dq msg t st1
          match ackOp msg.ack t st2 with
          | (.error e, st3) => ([.error e], st3)
          | (.ok _, st3) => getLoop q q.visibility t fuel st3
        | none =>
          match ackOp msg.ack t st1 with
          | (.error e, st3) => ([.error e, .ok (some msg)], st3)
          | (.ok _, st3) =>
            let r := getLoop q q.visibility t fuel st3
            (r.1 ++ [.ok (some msg)], r.2)
      else ([.ok (some msg)], st1)

/-- `Queue.prototype.get` with its options bag. -/
def getModel (q : Queue) (optVis : Option Int) (t : Int) (fuel : Nat) (st : St) :
    List (Except QErr (Option Msg)) × St :=
  getLoop q (effVisibility q optVis) t fuel st

/-- The filter of `inFlight`:
`{ack: {$exists: true}, visible: {$gt: now}, deleted: null}`. -/
def inFlightQuery (t : Int) (d : Doc) : Bool :=
  existsTrue d.ack && tsGt t d.visible && nullMatch d.deleted

/-- The filter of `done` and `clean`: `{deleted: {$exists: true}}`. -/
def doneQuery (d : Doc) : Bool := existsTrue d.deleted

/-- `Queue.prototype.size`: count of the claim filter. -/
def sizeCount (t : Int) (col : List Doc) : Nat := (col.filter (claimQuery t)).length

/-- `Queue.prototype.inFlight`. -/
def inFlightCount (t : Int) (col : List Doc) : Nat := (col.filter (inFlightQuery t)).length

/-- `Queue.prototype.done`. -/
def doneCount (col : List Doc) : Nat := (col.filter doneQuery).length

/-- `Queue.prototype.total`: count of all documents. -/
def totalCount (col : List Doc) : Nat := col.length

/-- `Queue.prototype.clean`: `deleteMany {deleted: {$exists: true}}`. -/
def cleanOp (col : List Doc) : List Doc := col.filter (fun d => !doneQuery d)

/-- The migrate scan filter
`{$or: [{deleted: {$type: 2}}, {visible: {$type: 2}}]}` — string-typed
timestamps only. -/
def migQuery (d : Doc) : Bool :=
  (match d.deleted with | .val (.str _) => true | _ => false)
    || (match d.visible with | .str _ => true | _ => false)

/-- The per-document migrate rewrite: string timestamps become native dates
(`parse` models `new Date(string)`). -/
def migUpdate (parse : String → Int) (d : Doc) : Doc :=
  let d1 :=
    match d.deleted with
    | .val (.str s) => { d with deleted := .val (.date (parse s)) }
    | _ => d
  match d1.visible with
  | .str s => { d1 with visible := .date (parse s) }
  | .date _ => d1

/-- `Queue.prototype.migrate`: rewrite every matched document in one bulk
write; with no matches, complete without a write and without a count. -/
def migrateOp (parse : String → Int) (col : List Doc) : Option Nat × List Doc :=
  let n := (col.filter migQuery).length
  if n = 0 then (none, col)
  else (some n, col.map (fun d => if migQuery d then migUpdate parse d else d))

/-- One committed public operation of the library, as a relation on states:
`add`, `get`, `ping`, `ack` or `migrate` with arbitrary arguments. -/
inductive QStep : St → St → Prop where
  | addStep : ∀ (q : Queue) (pl : Val ⊕ List Val) (opts : AddOpts) (t : Int) (st : St),
      QStep st (addModel q pl opts t st).2
  | getStep : ∀ (q : Queue) (ov : Option Int) (t : Int) (fuel : Nat) (st : St),
      QStep st (getModel q ov t fuel st).2
  | pingStep : ∀ (q : Queue) (ov : Option Int) (tok : Nat) (t : Int) (st : St),
      QStep st (pingOp q ov tok t st).2
  | ackStep : ∀ (tok : Nat) (t : Int) (st : St),
      QStep st (ackOp tok t st).2
  | migrateStep : ∀ (parse : String → Int) (st : St),
      QStep st { st with col := (migrateOp parse st.col).2 }

/-- The empty store with fresh counters. -/
def stEmpty : St := { col := [], deadCol := [], nextId := 1, supply := 100 }

/-- A queue with every option defaulted. -/
def qBase : Queue :=
  { name := "q", visibility := 30, delay := 0, cleanAfterSeconds := -1,
    deadQueue := none, maxRetries := none }

/-- A queue with `maxRetries: 2` and no dead queue. -/
def qRetry : Queue := { qBase with maxRetries := some 2 }

/-- A queue with `maxRetries: 2` and a dead queue (default delay 0). -/
def qRetryDead : Queue := { qBase with maxRetries := some 2, deadQueue := some { delay := 0 } }

/-- A queue constructed with `delay: 5`. -/
def qDelay5 : Queue := { qBase with delay := 5 }

/-- A claimable document that has already been claimed twice. -/
def overDoc : Doc :=
  { mid := 1, payload := .str "p", visible := .date 0, ack := .absent,
    tries := .val 2, deleted := .absent, debounce := .absent }

/-- A store holding only `overDoc`. -/
def stOver : St := { col := [overDoc], deadCol := [], nextId := 2, supply := 100 }

/-- The store reached from the empty store by one debounced `add`: its one
document carries literal null `ack` and `deleted` fields. -/
def stDeb : St := (addModel qBase (.inl (.str "x")) { debounce := some "k" } 0 stEmpty).2

/-- A document already acked at time 3. -/
def dDone : Doc :=
  { mid := 1, payload := .str "w", visible := .date 0, ack := .absent,
    tries := .absent, deleted := .val (.date 3), debounce := .absent }

/-- A store holding only the finished document `dDone`. -/
def stDone : St := { col := [dDone], deadCol := [], nextId := 2, supply := 0 }

/-- A leased document: token 7, lease deadline 10000. -/
def dLive : Doc :=
  { mid := 4, payload := .str "z", visible := .date 10000, ack := .val 7,
    tries := .val 1, deleted := .absent, debounce := .absent }

/-- A store holding only the leased document `dLive`. -/
def stLive : St := { col := [dLive], deadCol := [], nextId := 5, supply := 8 }

/-- `eqVal` holds exactly on the field holding that value. -/
theorem eqVal_eq_true_iff [DecidableEq α] (x : α) (b : BField α) :
    eqVal x b = true ↔ b = .val x := by
  cases b with
  | absent => simp [eqVal]
  | null => simp [eqVal]
  | val y =>
    simp only [eqVal, decide_eq_true_eq, BField.val.injEq]
    exact eq_comm

/-- A search over documents that all fail the filter updates nothing. -/
theorem updateFirst_all_false (p : Doc → Bool) (u : Doc → Doc) :
    ∀ l : List Doc, (∀ d ∈ l, p d = false) → updateFirst p u l = (none, l) := by
  intro l
  induction l with
  | nil => intro _; rfl
  | cons d ds ih =>
    intro h
    have hd : p d = false := h d (by simp)
    have hds := ih (fun x hx => h x (by simp [hx]))
    simp [updateFirst, hd, hds]

/-- A search whose first match is `d` updates exactly `d`. -/
theorem updateFirst_first_match (p : Doc → Bool) (u : Doc → Doc) :
    ∀ (l₁ : List Doc) (d : Doc) (l₂ : List Doc), (∀ x ∈ l₁, p x = false) → p d = true →
      updateFirst p u (l₁ ++ d :: l₂) = (some (u d), l₁ ++ u d :: l₂) := by
  intro l₁
  induction l₁ with
  | nil =>
    intro d l₂ _ hd
    simp [updateFirst, hd]
  | cons a as ih =>
    intro d l₂ h hd
    have ha : p a = false := h a (by simp)
    have has := ih d l₂ (fun x hx => h x (by simp [hx])) hd
    simp [updateFirst, ha, has]

/-- The sorted claim search comes up empty exactly when no document passes
the claim filter. -/
theorem minClaimable_eq_none (t : Int) :
    ∀ l : List Doc, minClaimable t l = none ↔ ∀ d ∈ l, claimQuery t d = false := by
  intro l
  induction l with
  | nil => simp [minClaimable]
  | cons a as ih =>
    cases hr : minClaimable t as with
    | none =>
      by_cases ha : claimQuery t a = true
      · simp [minClaimable, ha, hr]
      · simp only [Bool.not_eq_true] at ha
        simp [minClaimable, ha, hr]
        exact ih.mp hr
    | some m =>
      by_cases ha : claimQuery t a = true
      · constructor
        · intro h
          exfalso
          by_cases hle : a.mid ≤ m.mid <;> simp [minClaimable, ha, hr, hle] at h
        · intro h
          exact absurd ha (by simp [h a (by simp)])
      · simp only [Bool.not_eq_true] at ha
        constructor
        · intro h
          rw [minClaimable] at h
          simp [ha, hr] at h
        · intro h
          have := (ih.mpr (fun d hd => h d (by simp [hd])))
          rw [hr] at this
          exact absurd this (by simp)

/-- The sorted claim search returns a member passing the claim filter. -/
theorem minClaimable_mem (t : Int) :
    ∀ (l : List Doc) (m : Doc), minClaimable t l = some m →
      m ∈ l ∧ claimQuery t m = true := by
  intro l
  induction l with
  | nil => intro m h; simp [minClaimable] at h
  | cons a as ih =>
    intro m h
    cases hr : minClaimable t as with
    | none =>
      by_cases ha : claimQuery t a = true
      · rw [minClaimable] at h
        simp [ha, hr] at h
        subst h
        exact ⟨by simp, ha⟩
      · simp only [Bool.not_eq_true] at ha
        rw [minClaimable] at h
        simp [ha, hr] at h
    | some m2 =>
      by_cases ha : claimQuery t a = true
      · by_cases hle : a.mid ≤ m2.mid
        · rw [minClaimable] at h
          simp [ha, hr, hle] at h
          subst h
          exact ⟨by simp, ha⟩
        · rw [minClaimable] at h
          simp [ha, hr, hle] at h
          subst h
          obtain ⟨hmem, hq⟩ := ih m2 hr
          exact ⟨by simp [hmem], hq⟩
      · simp only [Bool.not_eq_true] at ha
        rw [minClaimable] at h
        simp only [ha, hr] at h
        simp at h
        subst h
        obtain ⟨hmem, hq⟩ := ih m2 hr
        exact ⟨by simp [hmem], hq⟩

/-- The sorted claim search returns a document of minimal `_id` among the
documents passing the claim filter. -/
theorem minClaimable_min (t : Int) :
    ∀ (l : List Doc) (m : Doc), minClaimable t l = some m →
      ∀ d ∈ l, claimQuery t d = true → m.mid ≤ d.mid := by
  intro l
  induction l with
  | nil => intro m h; simp [minClaimable] at h
  | cons a as ih =>
    intro m h d hd hq
    cases hr : minClaimable t as with
    | none =>
      have hnone := (minClaimable_eq_none t as).mp hr
      by_cases ha : claimQuery t a = true
      · rw [minClaimable] at h
        simp [ha, hr] at h
        subst h
        rcases List.mem_cons.mp hd with h1 | h1
        · subst h1; exact le_refl _
        · exact absurd hq (by simp [hnone d h1])
      · simp only [Bool.not_eq_true] at ha
        rw [minClaimable] at h
        simp [ha, hr] at h
    | some m2 =>
      have hm2 := ih m2 hr
      by_cases ha : claimQuery t a = true
      · by_cases hle : a.mid ≤ m2.mid
        · rw [minClaimable] at h
          simp [ha, hr, hle] at h
          subst h
          rcases List.mem_cons.mp hd with h1 | h1
          · subst h1; exact le_refl _
          · exact le_trans hle (hm2 d h1 hq)
        · rw [minClaimable] at h
          simp [ha, hr, hle] at h
          subst h
          rcases List.mem_cons.mp hd with h1 | h1
          · subst h1; exact le_of_not_le hle
          · exact hm2 d h1 hq
      · simp only [Bool.not_eq_true] at ha
        rw [minClaimable] at h
        simp only [ha, hr] at h
        simp at h
        subst h
        rcases List.mem_cons.mp hd with h1 | h1
        · subst h1; exact absurd hq (by simp [ha])
        · exact hm2 d h1 hq

/-- The bulk write of `add` produces one result per payload, in order. -/
theorem bulkExec_length (deb : Option String) (vis : Int) :
    ∀ (ps : List Val) (st : St), (bulkExec deb vis ps st).1.length = ps.length := by
  intro ps
  induction ps with
  | nil => intro st; rfl
  | cons p ps ih => intro st; simp [bulkExec, ih]

/-- Positional preservation of a set `deleted` field: every position holding
a document whose `deleted` is present still holds such a document. -/
def delPres (l l2 : List Doc) : Prop :=
  ∀ (i : Nat) (d : Doc), l[i]? = some d → existsTrue d.deleted = true →
    ∃ d2, l2[i]? = some d2 ∧ existsTrue d2.deleted = true

theorem delPres_refl (l : List Doc) : delPres l l :=
  fun _ d h hd => ⟨d, h, hd⟩

theorem delPres_trans {a b c : List Doc} (h1 : delPres a b) (h2 : delPres b c) :
    delPres a c := by
  intro i d hi hd
  obtain ⟨d2, hi2, hd2⟩ := h1 i d hi hd
  exact h2 i d2 hi2 hd2

theorem delPres_append (l extra : List Doc) : delPres l (l ++ extra) := by
  intro i d hi hd
  refine ⟨d, ?_, hd⟩
  have hlen : i < l.length := by
    by_contra hge
    rw [List.getElem?_eq_none (Nat.le_of_not_lt hge)] at hi
    exact absurd hi (by simp)
  rw [List.getElem?_append_left hlen]
  exact hi

/-- An update that never clears a present `deleted` preserves it at every
position through `updateFirst`. -/
theorem delPres_updateFirst (p : Doc → Bool) (u : Doc → Doc)
    (hu : ∀ d, existsTrue d.deleted = true → existsTrue (u d).deleted = true) :
    ∀ l : List Doc, delPres l (updateFirst p u l).2 := by
  intro l
  induction l with
  | nil => intro i d hi _; simp at hi
  | cons a as ih =>
    by_cases hp : p a = true
    · intro i d hi hd
      cases i with
      | zero =>
        simp only [List.getElem?_cons_zero, Option.some.injEq] at hi
        subst hi
        exact ⟨u a, by simp [updateFirst, hp], hu a hd⟩
      | succ n =>
        simp only [List.getElem?_cons_succ] at hi
        refine ⟨d, ?_, hd⟩
        simp [updateFirst, hp, hi]
    · simp only [Bool.not_eq_true] at hp
      intro i d hi hd
      cases i with
      | zero =>
        simp only [List.getElem?_cons_zero, Option.some.injEq] at hi
        subst hi
        exact ⟨a, by simp [updateFirst, hp], hd⟩
      | succ n =>
        simp only [List.getElem?_cons_succ] at hi
        obtain ⟨d2, hi2, hd2⟩ := ih n d hi hd
        exact ⟨d2, by simp [updateFirst, hp, hi2], hd2⟩

/-- A pointwise rewrite that never clears a present `deleted` preserves it
at every position. -/
theorem delPres_map (f : Doc → Doc)
    (hf : ∀ d, existsTrue d.deleted = true → existsTrue (f d).deleted = true)
    (l : List Doc) : delPres l (l.map f) := by
  intro i d hi hd
  refine ⟨f d, ?_, hf d hd⟩
  simp [List.getElem?_map, hi]

theorem addOneOp_insert_eq (vis : Int) (p : Val) (st : St) :
    addOneOp none vis p st =
      (.inserted st.nextId,
        { st with col := st.col ++ [insertDoc st.nextId p vis], nextId := st.nextId + 1 }) := rfl

theorem addOneOp_matched_eq (k : String) (vis : Int) (p : Val) (st : St) (f : Doc)
    (col2 : List Doc)
    (h : updateFirst (debounceQuery k) (debounceUpdate vis p) st.col = (some f, col2)) :
    addOneOp (some k) vis p st = (.matched, { st with col := col2 }) := by
  unfold addOneOp
  simp only [h]

theorem addOneOp_upsert_eq (k : String) (vis : Int) (p : Val) (st : St) (col2 : List Doc)
    (h : updateFirst (debounceQuery k) (debounceUpdate vis p) st.col = (none, col2)) :
    addOneOp (some k) vis p st =
      (.upserted st.nextId,
        { st with col := st.col ++ [upsertDoc st.nextId p vis k], nextId := st.nextId + 1 }) := by
  unfold addOneOp
  simp only [h]

theorem ackOp_none_eq (tok : Nat) (t : Int) (st : St) (col2 : List Doc)
    (h : updateFirst (liveAckQuery tok t) (fun d => { d with deleted := .val (.date t) })
          st.col = (none, col2)) :
    ackOp tok t st = (.error (.unidentifiedAckAck tok), st) := by
  unfold ackOp
  rw [h]

theorem ackOp_some_eq (tok : Nat) (t : Int) (st : St) (f : Doc) (col2 : List Doc)
    (h : updateFirst (liveAckQuery tok t) (fun d => { d with deleted := .val (.date t) })
          st.col = (some f, col2)) :
    ackOp tok t st = (.ok (idString f.mid), { st with col := col2 }) := by
  unfold ackOp
  rw [h]

theorem pingOp_none_eq (q : Queue) (ov : Option Int) (tok : Nat) (t : Int) (st : St)
    (col2 : List Doc)
    (h : updateFirst (liveAckQuery tok t)
          (fun d => { d with visible := .date (nowPlusSecs t (effVisibility q ov)) })
          st.col = (none, col2)) :
    pingOp q ov tok t st = (.error (.unidentifiedAckPing tok), st) := by
  unfold pingOp
  rw [h]

theorem pingOp_some_eq (q : Queue) (ov : Option Int) (tok : Nat) (t : Int) (st : St)
    (f : Doc) (col2 : List Doc)
    (h : updateFirst (liveAckQuery tok t)
          (fun d => { d with visible := .date (nowPlusSecs t (effVisibility q ov)) })
          st.col = (some f, col2)) :
    pingOp q ov tok t st = (.ok (idString f.mid), { st with col := col2 }) := by
  unfold pingOp
  rw [h]

theorem claimStep_empty_eq (vis t : Int) (st : St) (h : minClaimable t st.col = none) :
    claimStep vis t st = (none, st) := by
  unfold claimStep
  rw [h]

theorem claimStep_some_eq (vis t : Int) (st : St) (m d2 : Doc) (col2 : List Doc)
    (hm : minClaimable t st.col = some m)
    (h : updateFirst (fun d => claimQuery t d && d.mid == m.mid)
          (claimUpdate st.supply (nowPlusSecs t vis)) st.col = (some d2, col2)) :
    claimStep vis t st =
      (some { id := idString d2.mid, ack := bgetD d2.ack 0, payload := d2.payload,
              tries := bgetD d2.tries 0 },
       { st with col := col2, supply := st.supply + 1 }) := by
  unfold claimStep
  rw [hm]
  simp only [h]

theorem getLoop_succ_empty (q : Queue) (vis t : Int) (fuel : Nat) (st st1 : St)
    (h : claimStep vis t st = (none, st1)) :
    getLoop q vis t (fuel + 1) st = ([Except.ok none], st1) := by
  unfold getLoop
  rw [h]

theorem getLoop_succ_ok (q : Queue) (vis t : Int) (fuel : Nat) (st st1 : St) (msg : Msg)
    (h : claimStep vis t st = (some msg, st1))
    (hex : exceedsMax q msg.tries = false) :
    getLoop q vis t (fuel + 1) st = ([Except.ok (some msg)], st1) := by
  unfold getLoop
  rw [h]
  simp [hex]

theorem delPres_addOneOp (deb : Option String) (vis : Int) (p : Val) (st : St) :
    delPres st.col (addOneOp deb vis p st).2.col := by
  cases deb with
  | none =>
    rw [addOneOp_insert_eq]
    exact delPres_append _ _
  | some k =>
    rcases hr : updateFirst (debounceQuery k) (debounceUpdate vis p) st.col with ⟨found, col2⟩
    cases found with
    | none =>
      rw [addOneOp_upsert_eq k vis p st col2 hr]
      exact delPres_append _ _
    | some f =>
      rw [addOneOp_matched_eq k vis p st f col2 hr]
      have h := delPres_updateFirst (debounceQuery k) (debounceUpdate vis p)
        (fun d hd => hd) st.col
      rw [hr] at h
      exact h

theorem delPres_bulkExec (deb : Option String) (vis : Int) :
    ∀ (ps : List Val) (st : St), delPres st.col (bulkExec deb vis ps st).2.col := by
  intro ps
  induction ps with
  | nil => intro st; exact delPres_refl _
  | cons p ps ih =>
    intro st
    have h1 := delPres_addOneOp deb vis p st
    have h2 := ih (addOneOp deb vis p st).2
    simp only [bulkExec]
    exact delPres_trans h1 h2

theorem delPres_addModel (q : Queue) (pl : Val ⊕ List Val) (opts : AddOpts) (t : Int)
    (st : St) : delPres st.col (addModel q pl opts t st).2.col := by
  rcases pl with p | ps
  · have h := delPres_bulkExec (jsStrOrNull opts.debounce) (addVisible q opts t) [p] st
    simpa [addModel] using h
  · by_cases hl : ps.length = 0
    · simp [addModel, hl]
      exact delPres_refl _
    · have h := delPres_bulkExec (jsStrOrNull opts.debounce) (addVisible q opts t) ps st
      simpa [addModel, hl] using h

theorem delPres_ackOp (tok : Nat) (t : Int) (st : St) :
    delPres st.col (ackOp tok t st).2.col := by
  rcases hr : updateFirst (liveAckQuery tok t)
      (fun d => { d with deleted := .val (.date t) }) st.col with ⟨found, col2⟩
  cases found with
  | none =>
    rw [ackOp_none_eq tok t st col2 hr]
    exact delPres_refl _
  | some f =>
    rw [ackOp_some_eq tok t st f col2 hr]
    have h := delPres_updateFirst (liveAckQuery tok t)
      (fun d => { d with deleted := .val (.date t) }) (fun d _ => rfl) st.col
    rw [hr] at h
    exact h

theorem delPres_pingOp (q : Queue) (ov : Option Int) (tok : Nat) (t : Int) (st : St) :
    delPres st.col (pingOp q ov tok t st).2.col := by
  rcases hr : updateFirst (liveAckQuery tok t)
      (fun d => { d with visible := .date (nowPlusSecs t (effVisibility q ov)) })
      st.col with ⟨found, col2⟩
  cases found with
  | none =>
    rw [pingOp_none_eq q ov tok t st col2 hr]
    exact delPres_refl _
  | some f =>
    rw [pingOp_some_eq q ov tok t st f col2 hr]
    have h := delPres_updateFirst (liveAckQuery tok t)
      (fun d => { d with visible := .date (nowPlusSecs t (effVisibility q ov)) })
      (fun d hd => hd) st.col
    rw [hr] at h
    exact h

theorem delPres_claimStep (vis t : Int) (st : St) :
    delPres st.col (claimStep vis t st).2.col := by
  cases hm : minClaimable t st.col with
  | none =>
    rw [claimStep_empty_eq vis t st hm]
    exact delPres_refl _
  | some m =>
    rcases hr : updateFirst (fun d => claimQuery t d && d.mid == m.mid)
        (claimUpdate st.supply (nowPlusSecs t vis)) st.col with ⟨found, col2⟩
    cases found with
    | none =>
      have : claimStep vis t st = (none, st) := by
        unfold claimStep
        rw [hm]
        simp only [hr]
      rw [this]
      exact delPres_refl _
    | some d2 =>
      rw [claimStep_some_eq vis t st m d2 col2 hm hr]
      have h := delPres_updateFirst (fun d => claimQuery t d && d.mid == m.mid)
        (claimUpdate st.supply (nowPlusSecs t vis)) (fun d hd => hd) st.col
      rw [hr] at h
      exact h

theorem delPres_getLoop (q : Queue) (t : Int) :
    ∀ (fuel : Nat) (vis : Int) (st : St), delPres st.col (getLoop q vis t fuel st).2.col := by
  intro fuel
  induction fuel with
  | zero => intro vis st; exact delPres_refl _
  | succ n ih =>
    intro vis st
    rcases hcs : claimStep vis t st with ⟨omsg, st1⟩
    have h1 : delPres st.col st1.col := by
      have h := delPres_claimStep vis t st
      rw [hcs] at h
      exact h
    cases omsg with
    | none =>
      rw [getLoop_succ_empty q vis t n st st1 hcs]
      exact h1
    | some msg =>
      by_cases hex : exceedsMax q msg.tries = true
      · unfold getLoop
        rw [hcs]
        simp only [hex, if_true]
        cases hdq : q.deadQueue with
        | some dq =>
          rcases hack : ackOp msg.ack t (deadAdd dq msg t st1) with ⟨res, st3⟩
          have h2 : delPres st1.col st3.col := by
            have h := delPres_ackOp msg.ack t (deadAdd dq msg t st1)
            rw [hack] at h
            exact h
          cases res with
          | error e =>
            simp only [hack]
            exact delPres_trans h1 h2
          | ok v =>
            simp only [hack]
            exact delPres_trans h1 (delPres_trans h2 (ih q.visibility st3))
        | none =>
          rcases hack : ackOp msg.ack t st1 with ⟨res, st3⟩
          have h2 : delPres st1.col st3.col := by
            have h := delPres_ackOp msg.ack t st1
            rw [hack] at h
            exact h
          cases res with
          | error e =>
            simp only [hack]
            exact delPres_trans h1 h2
          | ok v =>
            simp only [hack]
            exact delPres_trans h1 (delPres_trans h2 (ih q.visibility st3))
      · simp only [Bool.not_eq_true] at hex
        rw [getLoop_succ_ok q vis t n st st1 msg hcs hex]
        exact h1

theorem delPres_migrate (parse : String → Int) (col : List Doc) :
    delPres col (migrateOp parse col).2 := by
  rw [migrateOp]
  by_cases hn : (col.filter migQuery).length = 0
  · simp only [hn, if_true]
    exact delPres_refl _
  · simp only [hn, if_false]
    refine delPres_map _ ?_ col
    intro d hd
    by_cases hq : migQuery d = true
    · simp only [hq, if_true]
      rw [migUpdate]
      cases hdel : d.deleted with
      | absent => rw [hdel] at hd; simp [existsTrue] at hd
      | null => cases hvis : d.visible <;> simp [existsTrue, hdel]
      | val ts =>
        cases ts with
        | str s => cases hvis : d.visible <;> simp [existsTrue]
        | date x => cases hvis : d.visible <;> simp [existsTrue, hdel]
    · simp only [Bool.not_eq_true] at hq
      simp [hq, hd]

theorem eqVal_false_of_ne [DecidableEq α] (x : α) (b : BField α) (h : b ≠ .val x) :
    eqVal x b = false := by
  cases hb : eqVal x b
  · rfl
  · exact absurd ((eqVal_eq_true_iff x b).mp hb) h

/-- A document whose ack field does not hold the token fails the live-lease
filter at every instant. -/
theorem liveAckQuery_false_of_ack_ne (tok : Nat) (t : Int) (x : Doc) (h : x.ack ≠ .val tok) :
    liveAckQuery tok t x = false := by
  simp [liveAckQuery, eqVal_false_of_ne tok x.ack h]

/-- Three pairwise-disjoint filters select at most the whole list between
them. -/
theorem length_filter_three_le (p q r : Doc → Bool) :
    ∀ l : List Doc,
      (∀ x ∈ l, p x = true → q x = false) →
      (∀ x ∈ l, p x = true → r x = false) →
      (∀ x ∈ l, q x = true → r x = false) →
      (l.filter p).length + (l.filter q).length + (l.filter r).length ≤ l.length := by
  intro l
  induction l with
  | nil => intro _ _ _; simp
  | cons a as ih =>
    intro h1 h2 h3
    have ihs := ih (fun x hx => h1 x (by simp [hx])) (fun x hx => h2 x (by simp [hx]))
      (fun x hx => h3 x (by simp [hx]))
    by_cases hp : p a = true
    · have hqa := h1 a (by simp) hp
      have hra := h2 a (by simp) hp
      simp only [List.filter_cons, hp, hqa, hra, if_true, if_false, Bool.false_eq_true,
        List.length_cons]
      omega
    · simp only [Bool.not_eq_true] at hp
      by_cases hqa : q a = true
      · have hra := h3 a (by simp) hqa
        simp only [List.filter_cons, hp, hqa, hra, if_true, if_false, Bool.false_eq_true,
          List.length_cons]
        omega
      · simp only [Bool.not_eq_true] at hqa
        by_cases hra : r a = true
        · simp only [List.filter_cons, hp, hqa, hra, if_true, if_false, Bool.false_eq_true,
            List.length_cons]
          omega
        · simp only [Bool.not_eq_true] at hra
          simp only [List.filter_cons, hp, hqa, hra, if_false, Bool.false_eq_true,
            List.length_cons]
          omega

/-- C1: on a queue with `maxRetries: 2` and no dead queue, a `get` that
claims a message whose incremented tries reaches 3 acks it and recurses, but
the source lacks a `return` before the final `callback(null, msg)`, so the
callback is also invoked with the over-retried message itself (here after
the recursion's empty result).  With a dead queue configured the same input
yields only the empty result and the message lands in the dead collection,
as the specification describes. -/
theorem c1_over_retried_message_delivered :
    exceedsMax qRetry 3 = true ∧
    (getModel qRetry none 1000 5 stOver).1
      = [Except.ok none,
         Except.ok (some { id := "1", ack := 100, payload := .str "p", tries := 3 })] ∧
    (getModel qRetryDead none 1000 5 stOver).1 = [Except.ok none] ∧
    (getModel qRetryDead none 1000 5 stOver).2.deadCol
      = [insertDoc 2 (Msg.toVal { id := "1", ack := 100, payload := .str "p", tries := 3 })
          1000] :=
  ⟨by decide, by rfl, by rfl, by decide⟩

/-- C7: constructing a queue fails exactly when the store client or the name
is missing (JS-falsy), and `add` with an empty array payload fails with the
validation error while writing nothing: the state is returned unchanged. -/
theorem c7_construction_and_empty_add :
    (∀ (hasClient : Bool) (nm : String) (opts : QueueOpts),
      (∃ e, mkQueue hasClient nm opts = .error e) ↔ (hasClient = false ∨ nm = "")) ∧
    (∀ (q : Queue) (opts : AddOpts) (t : Int) (st : St),
      addModel q (.inr ([] : List Val)) opts t st = (.error .emptyAdd, st)) := by
  constructor
  · intro hasClient nm opts
    constructor
    · rintro ⟨e, he⟩
      by_cases hc : hasClient
      · by_cases hn : nm = ""
        · exact Or.inr hn
        · rw [mkQueue] at he
          simp [hc, hn] at he
      · exact Or.inl (by simpa using hc)
    · rintro (hc | hn)
      · exact ⟨.noClient, by simp [mkQueue, hc]⟩
      · by_cases hc : hasClient
        · exact ⟨.noName, by simp [mkQueue, hc, hn]⟩
        · exact ⟨.noClient, by simp [mkQueue, hc]⟩
  · intro q opts t st
    rfl

/-- C8: across every committed operation (add, get, ping, ack, migrate), a
document whose `deleted` field is present still has it present afterwards:
no filter-plus-update pair of the library clears `deleted`. -/
theorem c8_deleted_monotone (st st2 : St) (h : QStep st st2) (i : Nat) (d : Doc)
    (hi : st.col[i]? = some d) (hd : existsTrue d.deleted = true) :
    ∃ d2, st2.col[i]? = some d2 ∧ existsTrue d2.deleted = true := by
  cases h with
  | addStep q pl opts t st => exact delPres_addModel q pl opts t st i d hi hd
  | getStep q ov t fuel st => exact delPres_getLoop q t fuel (effVisibility q ov) st i d hi hd
  | pingStep q ov tok t st => exact delPres_pingOp q ov tok t st i d hi hd
  | ackStep tok t st => exact delPres_ackOp tok t st i d hi hd
  | migrateStep parse st => exact delPres_migrate parse st.col i d hi hd

/-- C8 witness: the monotonicity theorem applied to an ack step on a store
whose only document is already deleted. -/
theorem c8_deleted_monotone_witness :
    ∃ d2, ((ackOp 7 5 stDone).2).col[0]? = some d2 ∧ existsTrue d2.deleted = true :=
  c8_deleted_monotone stDone (ackOp 7 5 stDone).2 (QStep.ackStep 7 5 stDone) 0 dDone
    (by rfl) (by rfl)

/-- C9 counterexample: the state reached from the empty store by one
debounced `add` holds a single document with literal null `ack` and
`deleted` fields.  Once visible it is counted by both `size` and `done`
(whose `$exists: true` filter matches a null field), so
size + inFlight + done = 2 exceeds total = 1; and while still delayed the
same document is counted by both `inFlight` and `done`. -/
theorem c9_counts_counterexample :
    QStep stEmpty stDeb ∧
    stDeb.col = [upsertDoc 1 (.str "x") 0 "k"] ∧
    sizeCount 5 stDeb.col + inFlightCount 5 stDeb.col + doneCount stDeb.col = 2 ∧
    totalCount stDeb.col = 1 ∧
    ¬ (sizeCount 5 stDeb.col + inFlightCount 5 stDeb.col + doneCount stDeb.col
        ≤ totalCount stDeb.col) ∧
    inFlightQuery (-5) (upsertDoc 1 (.str "x") 0 "k") = true ∧
    doneQuery (upsertDoc 1 (.str "x") 0 "k") = true :=
  ⟨QStep.addStep qBase (.inl (.str "x")) { debounce := some "k" } 0 stEmpty,
   by decide, by decide, by decide, by decide, by decide, by decide⟩

/-- C9 amended: over any collection in which no document carries a literal
null `deleted` field (debounce upserts are the only source of such
documents), the point-in-time counts satisfy
size + inFlight + done ≤ total, and a document counted by `inFlight` passes
neither the `size` filter nor the `done` filter. -/
theorem c9_counts_amended (t : Int) (col : List Doc)
    (hnull : ∀ d ∈ col, d.deleted ≠ BField.null) :
    sizeCount t col + inFlightCount t col + doneCount col ≤ totalCount col ∧
    (∀ d ∈ col, inFlightQuery t d = true → claimQuery t d = false ∧ doneQuery d = false) := by
  have hsizeInflight : ∀ x ∈ col, claimQuery t x = true → inFlightQuery t x = false := by
    intro x _ hp
    rw [claimQuery, Bool.and_eq_true] at hp
    obtain ⟨_, hvis⟩ := hp
    have hgt : tsGt t x.visible = false := by
      cases hv : x.visible with
      | str s => rfl
      | date y =>
        rw [hv] at hvis
        simp only [tsLe, decide_eq_true_eq] at hvis
        simp only [tsGt, decide_eq_false_iff_not, not_lt]
        exact hvis
    simp [inFlightQuery, hgt]
  have hnotDone : ∀ x ∈ col, nullMatch x.deleted = true → doneQuery x = false := by
    intro x hx hdel
    have hnn := hnull x hx
    cases hd : x.deleted with
    | absent => simp [doneQuery, existsTrue, hd]
    | null => exact absurd hd hnn
    | val ts => rw [hd] at hdel; simp [nullMatch] at hdel
  have hsizeDone : ∀ x ∈ col, claimQuery t x = true → doneQuery x = false := by
    intro x hx hp
    rw [claimQuery, Bool.and_eq_true] at hp
    exact hnotDone x hx hp.1
  have hinflightDone : ∀ x ∈ col, inFlightQuery t x = true → doneQuery x = false := by
    intro x hx hp
    rw [inFlightQuery, Bool.and_eq_true, Bool.and_eq_true] at hp
    exact hnotDone x hx hp.2
  constructor
  · exact length_filter_three_le (claimQuery t) (inFlightQuery t) doneQuery col
      hsizeInflight hsizeDone hinflightDone
  · intro d hd hin
    constructor
    · cases hc : claimQuery t d with
      | false => rfl
      | true => rw [hsizeInflight d hd hc] at hin; exact absurd hin (by simp)
    · exact hinflightDone d hd hin

/-- C9 amended witness: the amended count inequality at a one-document
collection with an absent `deleted` field. -/
theorem c9_counts_amended_witness :
    sizeCount 0 [overDoc] + inFlightCount 0 [overDoc] + doneCount [overDoc]
        ≤ totalCount [overDoc] ∧
    (∀ d ∈ [overDoc], inFlightQuery 0 d = true →
      claimQuery 0 d = false ∧ doneQuery d = false) :=
  c9_counts_amended 0 [overDoc] (by decide)

/-- C5 counterexample: on a queue constructed with `delay: 5`, an `add` with
the explicit option `delay: 0` does not make the message immediately
visible: `opts.delay || self.delay` treats 0 as falsy, so the effective
delay is 5 and the inserted document becomes visible at now + 5000 ms, not
at now. -/
theorem c5_delay_zero_counterexample :
    effDelay qDelay5 { delay := some 0 } = 5 ∧
    (addModel qDelay5 (.inl (.str "x")) { delay := some 0 } 1000 stEmpty).2.col
      = [insertDoc 1 (.str "x") 6000] ∧
    (addModel qDelay5 (.inl (.str "x")) { delay := some 0 } 1000 stEmpty).2.col
      ≠ [insertDoc 1 (.str "x") 1000] :=
  ⟨by decide, by rfl, by decide⟩

/-- C5 amended: the effective delay of `add` is `opts.delay` only when it is
present and nonzero (JS falsy fallback); when `opts.delay` is absent or 0
the queue default applies; the resulting `visible` always equals now plus
the effective delay in seconds, and a debounce-free add appends exactly the
document stamped with it. -/
theorem c5_effective_delay_amended (q : Queue) (opts : AddOpts) (t : Int) (st : St)
    (p : Val) :
    (∀ v, opts.delay = some v → v ≠ 0 → effDelay q opts = v) ∧
    ((opts.delay = none ∨ opts.delay = some 0) → effDelay q opts = q.delay) ∧
    addVisible q opts t = nowPlusSecs t (effDelay q opts) ∧
    (jsStrOrNull opts.debounce = none →
      (addModel q (.inl p) opts t st).2.col
        = st.col ++ [insertDoc st.nextId p (addVisible q opts t)]) := by
  refine ⟨?_, ?_, ?_, ?_⟩
  · intro v hv hne
    simp [effDelay, jsOrInt, hv, hne]
  · rintro (h | h) <;> simp [effDelay, jsOrInt, h]
  · by_cases h : effDelay q opts = 0
    · simp only [addVisible, h, if_true, nowPlusSecs]
      omega
    · simp [addVisible, h]
  · intro hdeb
    simp [addModel, hdeb, bulkExec, addOneOp]

/-- C6 counterexample: a batch `add` of two payloads returns the single
comma-joined string of the two ids (the JS coercion of the id array), not
an array of id strings. -/
theorem c6_batch_array_counterexample :
    (addModel qBase (.inr [.str "a", .str "b"]) {} 7 stEmpty).1 = .ok (.jstr "1,2") ∧
    (addModel qBase (.inr [.str "a", .str "b"]) {} 7 stEmpty).1 ≠ .ok (.jarr ["1", "2"]) := by
  constructor
  · rfl
  · intro h
    have : JsRet.jstr "1,2" = JsRet.jarr ["1", "2"] := by
      have h2 : (addModel qBase (.inr [.str "a", .str "b"]) {} 7 stEmpty).1
          = Except.ok (JsRet.jstr "1,2") := rfl
      rw [h2] at h
      exact Except.ok.inj h
    exact absurd this (by simp)

/-- C6 amended: a single `add` returns the id string of its one bulk
operation (inserted id, upserted id, or the debounced sentinel); a batch
`add` returns the comma-joined string of the per-element id strings, one
result per payload in input order (never an array). -/
theorem c6_add_return_amended (q : Queue) (opts : AddOpts) (t : Int) (st : St) (p : Val)
    (ps : List Val) (hps : ps ≠ []) :
    (addModel q (.inl p) opts t st).1
      = .ok (.jstr (((bulkExec (jsStrOrNull opts.debounce) (addVisible q opts t) [p]
          st).1.map OpResult.idStr).headD "")) ∧
    (addModel q (.inr ps) opts t st).1
      = .ok (.jstr (String.intercalate ","
          ((bulkExec (jsStrOrNull opts.debounce) (addVisible q opts t) ps st).1.map
            OpResult.idStr))) ∧
    (bulkExec (jsStrOrNull opts.debounce) (addVisible q opts t) ps st).1.length
      = ps.length := by
  have hlen : ps.length ≠ 0 := by
    intro h
    exact hps (List.length_eq_zero.mp h)
  refine ⟨?_, ?_, bulkExec_length _ _ ps st⟩
  · simp [addModel]
  · simp [addModel, hlen]

/-- C6 amended witness: the batch return at a concrete two-element input. -/
theorem c6_add_return_amended_witness :
    (addModel qBase (.inr [.str "a", .str "b"]) {} 7 stEmpty).1
      = .ok (.jstr (String.intercalate ","
          ((bulkExec (jsStrOrNull ({} : AddOpts).debounce) (addVisible qBase {} 7)
            [.str "a", .str "b"] stEmpty).1.map OpResult.idStr))) :=
  (c6_add_return_amended qBase {} 7 stEmpty (.str "a") [.str "a", .str "b"]
    (by simp)).2.1

/-- C10: a `get` or `ping` options bag whose visibility is 0 (or absent)
silently falls back to the queue default: the operation behaves exactly as
if no visibility had been passed, and since the constructor itself defaults
a falsy visibility to 30, the effective lease duration is never zero. -/
theorem c10_falsy_visibility_default (hasClient : Bool) (nm : String) (qopts : QueueOpts)
    (q : Queue) (hq : mkQueue hasClient nm qopts = .ok q) (ov : Option Int) (tok : Nat)
    (t : Int) (fuel : Nat) (st : St) :
    effVisibility q (some 0) = q.visibility ∧
    effVisibility q none = q.visibility ∧
    q.visibility ≠ 0 ∧
    effVisibility q ov ≠ 0 ∧
    pingOp q (some 0) tok t st = pingOp q none tok t st ∧
    getModel q (some 0) t fuel st = getModel q none t fuel st := by
  have hvq : q.visibility = jsOrInt qopts.visibility 30 := by
    by_cases hc : hasClient
    · by_cases hn : nm = ""
      · rw [mkQueue] at hq
        simp [hc, hn] at hq
      · rw [mkQueue] at hq
        simp only [hc, hn, Bool.not_true, Bool.false_eq_true, if_false, if_true,
          Except.ok.injEq] at hq
        rw [← hq]
    · rw [mkQueue] at hq
      simp [hc] at hq
  have hvis : q.visibility ≠ 0 := by
    rw [hvq]
    cases hvo : qopts.visibility with
    | none => simp [jsOrInt]
    | some v =>
      by_cases hv : v = 0
      · simp [jsOrInt, hv]
      · simp [jsOrInt, hv]
  have h0 : effVisibility q (some 0) = q.visibility := by simp [effVisibility, jsOrInt]
  have hn : effVisibility q none = q.visibility := by simp [effVisibility, jsOrInt]
  refine ⟨h0, hn, hvis, ?_, ?_, ?_⟩
  · cases ov with
    | none => rw [hn]; exact hvis
    | some w =>
      by_cases hw : w = 0
      · rw [hw, h0]; exact hvis
      · simp [effVisibility, jsOrInt, hw]
  · unfold pingOp
    rw [h0, hn]
  · unfold getModel
    rw [h0, hn]

/-- C10 witness: the defaulted queue has visibility 30, and a zero
visibility option resolves to it. -/
theorem c10_falsy_visibility_default_witness :
    effVisibility qBase (some 0) = qBase.visibility ∧ qBase.visibility ≠ 0 :=
  ⟨(c10_falsy_visibility_default true "q" {} qBase rfl none 0 0 0 stEmpty).1,
   (c10_falsy_visibility_default true "q" {} qBase rfl none 0 0 0 stEmpty).2.2.1⟩

/-- C3: `get` claims atomically: when no document passes the claim filter
(`deleted` null-or-absent and `visible ≤ now`) it returns the empty result
and no error; otherwise the claimed document passes the filter and has the
smallest `_id` among the passing documents, and the one update increments
its tries by 1, stamps the fresh supply token as `ack` and
now + effectiveVisibility as `visible`, returning the post-update document
projected to `{id, ack, payload, tries}` with `id` the stringified `_id`. -/
theorem c3_get_claims_min_id (q : Queue) (ov : Option Int) (t : Int) (fuel : Nat) (st : St) :
    ((∀ d ∈ st.col, claimQuery t d = false) →
      getModel q ov t (fuel + 1) st = ([Except.ok none], st)) ∧
    (∀ m, minClaimable t st.col = some m →
      m ∈ st.col ∧ claimQuery t m = true ∧
        ∀ d ∈ st.col, claimQuery t d = true → m.mid ≤ d.mid) ∧
    (∀ l₁ m l₂, st.col = l₁ ++ m :: l₂ →
      minClaimable t st.col = some m →
      (∀ x ∈ l₁, (claimQuery t x && x.mid == m.mid) = false) →
      exceedsMax q (bgetD m.tries 0 + 1) = false →
      getModel q ov t (fuel + 1) st =
        ([Except.ok (some { id := idString m.mid, ack := st.supply, payload := m.payload,
                            tries := bgetD m.tries 0 + 1 })],
         { st with
             col := l₁ ++ claimUpdate st.supply (nowPlusSecs t (effVisibility q ov)) m :: l₂,
             supply := st.supply + 1 })) := by
  refine ⟨?_, ?_, ?_⟩
  · intro h
    have hmin : minClaimable t st.col = none := (minClaimable_eq_none t st.col).mpr h
    exact getLoop_succ_empty q (effVisibility q ov) t fuel st st
      (claimStep_empty_eq (effVisibility q ov) t st hmin)
  · intro m hm
    obtain ⟨hmem, hq⟩ := minClaimable_mem t st.col m hm
    exact ⟨hmem, hq, minClaimable_min t st.col m hm⟩
  · intro l₁ m l₂ hcol hmin hpre hex
    have hqm : claimQuery t m = true := (minClaimable_mem t st.col m hmin).2
    have hpm : (claimQuery t m && m.mid == m.mid) = true := by simp [hqm]
    have hr : updateFirst (fun x => claimQuery t x && x.mid == m.mid)
        (claimUpdate st.supply (nowPlusSecs t (effVisibility q ov))) st.col
        = (some (claimUpdate st.supply (nowPlusSecs t (effVisibility q ov)) m),
           l₁ ++ claimUpdate st.supply (nowPlusSecs t (effVisibility q ov)) m :: l₂) := by
      rw [hcol]
      exact updateFirst_first_match _ _ l₁ m l₂ hpre hpm
    have hcs := claimStep_some_eq (effVisibility q ov) t st m
      (claimUpdate st.supply (nowPlusSecs t (effVisibility q ov)) m)
      (l₁ ++ claimUpdate st.supply (nowPlusSecs t (effVisibility q ov)) m :: l₂) hmin hr
    exact getLoop_succ_ok q (effVisibility q ov) t fuel st _ _ hcs hex

/-- C3 witness: the characterization applied to a one-document store: both
the empty-filter direction (at a time before the document is visible, via
the vacuous filter hypothesis failing) and the claim direction at a time
after. -/
theorem c3_get_claims_min_id_witness :
    getModel qBase none 1000 1 stOver =
      ([Except.ok (some { id := idString overDoc.mid, ack := stOver.supply,
                          payload := overDoc.payload, tries := bgetD overDoc.tries 0 + 1 })],
       { stOver with
           col := [] ++ claimUpdate stOver.supply
             (nowPlusSecs 1000 (effVisibility qBase none)) overDoc :: [],
           supply := stOver.supply + 1 }) :=
  (c3_get_claims_min_id qBase none 1000 0 stOver).2.2 [] overDoc []
    (by rfl) (by rfl) (by intro x hx; exact absurd hx (by simp)) (by rfl)

/-- C4: the debounce upsert of `add` with key `k` filters on
`{ack: null, deleted: null, debounce: k}`: a Leased document (`ack` holding
a token) or a Done document (`deleted` holding a timestamp) never matches;
when a Pending or Delayed document matches, its `visible` is pushed to
now + effectiveDelay and its `payload` replaced, everything else unchanged
and nothing inserted; when nothing matches, a new document carrying the
debounce key (and literal null `ack` and `deleted`) is appended. -/
theorem c4_debounce_upsert (q : Queue) (k : String) (p : Val) (od : Option Int) (t : Int)
    (st : St) (hk : k ≠ "") :
    (∀ d : Doc, (∃ a, d.ack = .val a) ∨ (∃ ts, d.deleted = .val ts) →
      debounceQuery k d = false) ∧
    (∀ l₁ d l₂, st.col = l₁ ++ d :: l₂ →
      (∀ x ∈ l₁, debounceQuery k x = false) →
      debounceQuery k d = true →
      addModel q (.inl p) { delay := od, debounce := some k } t st =
        (.ok (.jstr "(debounced)"),
         { st with col := l₁ ++
             debounceUpdate (addVisible q { delay := od, debounce := some k } t) p d
               :: l₂ })) ∧
    ((∀ x ∈ st.col, debounceQuery k x = false) →
      addModel q (.inl p) { delay := od, debounce := some k } t st =
        (.ok (.jstr (idString st.nextId)),
         { st with
             col := st.col ++
               [upsertDoc st.nextId p (addVisible q { delay := od, debounce := some k } t) k],
             nextId := st.nextId + 1 })) := by
  have hdeb : jsStrOrNull (some k) = some k := by simp [jsStrOrNull, hk]
  refine ⟨?_, ?_, ?_⟩
  · intro d h
    rcases h with ⟨a, ha⟩ | ⟨ts, hts⟩
    · simp [debounceQuery, nullMatch, ha]
    · simp [debounceQuery, nullMatch, hts]
  · intro l₁ d l₂ hcol hpre hd
    have hr : updateFirst (debounceQuery k)
        (debounceUpdate (addVisible q { delay := od, debounce := some k } t) p) st.col
        = (some (debounceUpdate (addVisible q { delay := od, debounce := some k } t) p d),
           l₁ ++ debounceUpdate (addVisible q { delay := od, debounce := some k } t) p d
             :: l₂) := by
      rw [hcol]
      exact updateFirst_first_match _ _ l₁ d l₂ hpre hd
    have haoo := addOneOp_matched_eq k (addVisible q { delay := od, debounce := some k } t)
      p st _ _ hr
    simp [addModel, hdeb, bulkExec, haoo, OpResult.idStr]
  · intro hnone
    have hr := updateFirst_all_false (debounceQuery k)
      (debounceUpdate (addVisible q { delay := od, debounce := some k } t) p) st.col hnone
    have haoo := addOneOp_upsert_eq k (addVisible q { delay := od, debounce := some k } t)
      p st st.col hr
    simp [addModel, hdeb, bulkExec, haoo, OpResult.idStr]

/-- C4 witness: the upsert-insert branch applied to the empty store. -/
theorem c4_debounce_upsert_witness :
    addModel qBase (.inl (.str "x")) { delay := none, debounce := some "k" } 0 stEmpty
      = (.ok (.jstr (idString stEmpty.nextId)),
         { stEmpty with
             col := stEmpty.col ++ [upsertDoc stEmpty.nextId (.str "x")
               (addVisible qBase { delay := none, debounce := some "k" } 0) "k"],
             nextId := stEmpty.nextId + 1 }) :=
  (c4_debounce_upsert qBase "k" (.str "x") none 0 stEmpty (by decide)).2.2
    (by intro x hx; exact absurd hx (by simp [stEmpty]))

/-- C2: while now is strictly before the lease deadline of the unique
document holding an ack token and the document is not deleted, `ack`
succeeds (returning the id and stamping `deleted`), after which both `ack`
and `ping` fail at any time with the unidentified-ack error carrying the
token; `ping` in the same live window succeeds and merely extends the
deadline, leaving the same unique live lease (so it can succeed again and
`ack` still applies); once the deadline has passed without ack, both
operations fail with the unidentified-ack error carrying the token. -/
theorem c2_token_lifecycle (q : Queue) (ov ov2 : Option Int) (l₁ l₂ : List Doc) (d : Doc)
    (tok : Nat) (t t2 : Int) (st : St)
    (hcol : st.col = l₁ ++ d :: l₂)
    (hd : d.ack = .val tok)
    (huniq : ∀ x, x ∈ l₁ ∨ x ∈ l₂ → x.ack ≠ .val tok) :
    (tsGt t d.visible = true → nullMatch d.deleted = true →
      (ackOp tok t st).1 = .ok (idString d.mid) ∧
      (ackOp tok t st).2.col = l₁ ++ { d with deleted := .val (.date t) } :: l₂ ∧
      (ackOp tok t2 (ackOp tok t st).2).1 = .error (.unidentifiedAckAck tok) ∧
      (pingOp q ov2 tok t2 (ackOp tok t st).2).1 = .error (.unidentifiedAckPing tok)) ∧
    (tsGt t d.visible = true → nullMatch d.deleted = true →
      (pingOp q ov tok t st).1 = .ok (idString d.mid) ∧
      (pingOp q ov tok t st).2.col
        = l₁ ++ { d with visible := .date (nowPlusSecs t (effVisibility q ov)) } :: l₂) ∧
    (tsGt t d.visible = false →
      (ackOp tok t st).1 = .error (.unidentifiedAckAck tok) ∧
      (pingOp q ov tok t st).1 = .error (.unidentifiedAckPing tok)) := by
  have hpre : ∀ (t3 : Int), ∀ x ∈ l₁, liveAckQuery tok t3 x = false := fun t3 x hx =>
    liveAckQuery_false_of_ack_ne tok t3 x (huniq x (Or.inl hx))
  have hsuf : ∀ (t3 : Int), ∀ x ∈ l₂, liveAckQuery tok t3 x = false := fun t3 x hx =>
    liveAckQuery_false_of_ack_ne tok t3 x (huniq x (Or.inr hx))
  have heq : eqVal tok d.ack = true := (eqVal_eq_true_iff tok d.ack).mpr hd
  refine ⟨?_, ?_, ?_⟩
  · intro hlive hdel
    have hpd : liveAckQuery tok t d = true := by
      simp [liveAckQuery, heq, hlive, hdel]
    have hr : updateFirst (liveAckQuery tok t)
        (fun x => { x with deleted := .val (.date t) }) st.col
        = (some { d with deleted := .val (.date t) },
           l₁ ++ { d with deleted := .val (.date t) } :: l₂) := by
      rw [hcol]
      exact updateFirst_first_match _ _ l₁ d l₂ (hpre t) hpd
    have hres := ackOp_some_eq tok t st { d with deleted := .val (.date t) } _ hr
    have hcol2 : (ackOp tok t st).2.col
        = l₁ ++ { d with deleted := .val (.date t) } :: l₂ := by rw [hres]
    have hall : ∀ x ∈ (ackOp tok t st).2.col, ∀ (t3 : Int), liveAckQuery tok t3 x = false := by
      rw [hcol2]
      intro x hx t3
      rcases List.mem_append.mp hx with hx1 | hx2
      · exact hpre t3 x hx1
      · rcases List.mem_cons.mp hx2 with hx3 | hx4
        · subst hx3; simp [liveAckQuery, nullMatch]
        · exact hsuf t3 x hx4
    refine ⟨by rw [hres], hcol2, ?_, ?_⟩
    · have hnone := updateFirst_all_false (liveAckQuery tok t2)
        (fun x => { x with deleted := .val (.date t2) }) ((ackOp tok t st).2.col)
        (fun x hx => hall x hx t2)
      rw [ackOp_none_eq tok t2 (ackOp tok t st).2 _ hnone]
    · have hnone := updateFirst_all_false (liveAckQuery tok t2)
        (fun x => { x with visible := .date (nowPlusSecs t2 (effVisibility q ov2)) })
        ((ackOp tok t st).2.col) (fun x hx => hall x hx t2)
      rw [pingOp_none_eq q ov2 tok t2 (ackOp tok t st).2 _ hnone]
  · intro hlive hdel
    have hpd : liveAckQuery tok t d = true := by
      simp [liveAckQuery, heq, hlive, hdel]
    have hr : updateFirst (liveAckQuery tok t)
        (fun x => { x with visible := .date (nowPlusSecs t (effVisibility q ov)) }) st.col
        = (some { d with visible := .date (nowPlusSecs t (effVisibility q ov)) },
           l₁ ++ { d with visible := .date (nowPlusSecs t (effVisibility q ov)) } :: l₂) := by
      rw [hcol]
      exact updateFirst_first_match _ _ l₁ d l₂ (hpre t) hpd
    have hres := pingOp_some_eq q ov tok t st
      { d with visible := .date (nowPlusSecs t (effVisibility q ov)) } _ hr
    exact ⟨by rw [hres], by rw [hres]⟩
  · intro hexp
    have hall : ∀ x ∈ st.col, liveAckQuery tok t x = false := by
      rw [hcol]
      intro x hx
      rcases List.mem_append.mp hx with hx1 | hx2
      · exact hpre t x hx1
      · rcases List.mem_cons.mp hx2 with hx3 | hx4
        · subst hx3; simp [liveAckQuery, hexp]
        · exact hsuf t x hx4
    constructor
    · have hnone := updateFirst_all_false (liveAckQuery tok t)
        (fun x => { x with deleted := .val (.date t) }) st.col hall
      rw [ackOp_none_eq tok t st _ hnone]
    · have hnone := updateFirst_all_false (liveAckQuery tok t)
        (fun x => { x with visible := .date (nowPlusSecs t (effVisibility q ov)) })
        st.col hall
      rw [pingOp_none_eq q ov tok t st _ hnone]

/-- C2 witness: the lifecycle theorem applied to the one-document leased
store: ack at time 5 (before the deadline 10000) succeeds with the id, and
a repeated ack at time 6 fails with the unidentified-ack error. -/
theorem c2_token_lifecycle_witness :
    (ackOp 7 5 stLive).1 = .ok (idString dLive.mid) ∧
    (ackOp 7 6 (ackOp 7 5 stLive).2).1 = .error (.unidentifiedAckAck 7) :=
  ⟨((c2_token_lifecycle qBase none none [] [] dLive 7 5 6 stLive rfl rfl
      (by intro x hx; rcases hx with h | h <;> exact absurd h (by simp))).1
      (by decide) (by decide)).1,
   ((c2_token_lifecycle qBase none none [] [] dLive 7 5 6 stLive rfl rfl
      (by intro x hx; rcases hx with h | h <;> exact absurd h (by simp))).1
      (by decide) (by decide)).2.2.1⟩

end MQ
